import Mathlib

/-!
Verification development for the image-deduplication script dedup.py.

The script is a four-stage pipeline: scan a directory tree for image files,
hash each file with an external perceptual hasher, obtain a duplicate map
from the external grouping capability, then deterministically split the
paths into a kept set and a removed set and either report or delete the
removed set.

Shallow embedding choices:
  - an image path (a Python string) is modelled as its list of characters,
    so that the order used by sorted(...) is the lexicographic list order;
  - the external hasher is a parameter encode : Path → Option Hash where
    none models the hasher raising an exception for that file;
  - the external grouping capability is a parameter pair
    (dupKeys, dupOf) giving the keys of the returned duplicate dictionary
    and, for each key, its list of near-duplicate paths
    (duplicates.get(filename, []));
  - the filesystem is a finite set of paths; os.remove removes a path and
    a failed removal (missing file) is caught and leaves the set unchanged.
-/

namespace Dedup

/-- An image path: a Python string, modelled as its character list. -/
abbrev Path := List Char

/-- An opaque hash value returned by the external hasher. -/
abbrev Hash := List Char

/-- The fixed extension allow-list of get_image_files (dedup.py line 53). -/
def extensions : List Path :=
  [".jpg".toList, ".jpeg".toList, ".png".toList, ".bmp".toList,
   ".tiff".toList, ".webp".toList]

/-- Index of the last dot in a character list (Python str.rfind applied
to a single dot), or none when there is no dot. -/
def rfindDot : List Char → Option Nat
  | [] => none
  | c :: rest =>
    match rfindDot rest with
    | some i => some (i + 1)
    | none => if c = '.' then some 0 else none

/-- pathlib.Path(name).suffix: the substring from the last dot on, unless
the dot is the first or the last character of the name. -/
def pathSuffix (name : Path) : Path :=
  match rfindDot name with
  | some i => if 0 < i ∧ i < name.length - 1 then name.drop i else []
  | none => []

/-- str.lower applied to a path. -/
def toLowerPath (p : Path) : Path := p.map Char.toLower

/-- get_image_files (dedup.py lines 49-63): from the os.walk output,
modelled as a list of (root, filename) pairs in walk order, keep the
files whose lowercased suffix is in the allow-list and join each to its
root directory. -/
def get_image_files (walkFiles : List (Path × Path)) : List Path :=
  (walkFiles.filter (fun rf => decide (toLowerPath (pathSuffix rf.2) ∈ extensions))).map
    (fun rf => rf.1 ++ '/' :: rf.2)

/-- Python dict assignment d[k] = v on an insertion-ordered dictionary
modelled as an association list: overwrite in place when the key is
present, append otherwise. -/
def dictInsert (m : List (Path × Hash)) (k : Path) (v : Hash) : List (Path × Hash) :=
  if m.any (fun kv => kv.1 == k) then
    m.map (fun kv => if kv.1 = k then (k, v) else kv)
  else m ++ [(k, v)]

/-- generate_encodings (dedup.py lines 65-82): hash each scanned path in
order; a raised exception (encode returning none) is caught and the path
is simply skipped. -/
def generate_encodings (encode : Path → Option Hash) (image_paths : List Path) :
    List (Path × Hash) :=
  image_paths.foldl (fun encodings img_path =>
    match encode img_path with
    | some hash_str => dictInsert encodings img_path hash_str
    | none => encodings) []

/-- The mutable state of the selection loop of find_and_process_duplicates:
the set files_to_remove and the set kept_files (dedup.py lines 91-92). -/
structure SelState where
  files_to_remove : Finset Path
  kept_files : Finset Path

/-- The initial selection state: both sets empty. -/
def initialState : SelState := ⟨∅, ∅⟩

/-- Body of the inner loop (dedup.py lines 112-114): mark one listed
duplicate for removal unless it is the current filename itself, is already
marked for removal, or was already kept. -/
def markStep (filename : Path) (s : SelState) (dup : Path) : SelState :=
  if dup ≠ filename ∧ dup ∉ s.files_to_remove ∧ dup ∉ s.kept_files then
    { s with files_to_remove := insert dup s.files_to_remove }
  else s

/-- The inner loop over the duplicate list of the current filename. -/
def markDuplicates (filename : Path) (dups : List Path) (st : SelState) : SelState :=
  dups.foldl (markStep filename) st

/-- Body of the outer loop (dedup.py lines 98-114): skip a filename that
is already marked for removal or has an empty duplicate list; otherwise
keep it and process its duplicate list. -/
def processFilename (dupOf : Path → List Path) (st : SelState) (filename : Path) : SelState :=
  if filename ∈ st.files_to_remove then st
  else if dupOf filename = [] then st
  else markDuplicates filename (dupOf filename)
    { st with kept_files := insert filename st.kept_files }

/-- The outer loop of the selection phase over a given key order. -/
def selectionFold (dupOf : Path → List Path) (st : SelState) (keys : List Path) : SelState :=
  keys.foldl (processFilename dupOf) st

/-- sorted(duplicates.keys()) (dedup.py line 96). -/
def sorted_filenames (dupKeys : List Path) : List Path :=
  List.insertionSort (· ≤ ·) dupKeys

/-- The whole selection phase of find_and_process_duplicates (dedup.py
lines 91-114): fold the outer loop over the lexicographically sorted keys
of the duplicate map, starting from empty sets. -/
def selectionPhase (dupKeys : List Path) (dupOf : Path → List Path) : SelState :=
  selectionFold dupOf initialState (sorted_filenames dupKeys)

/-- The three counts printed in the result summary (dedup.py lines
117-120). Python integers are unbounded and signed, so the counts live
in ℤ. -/
structure ResultSummary where
  total_images : ℤ
  unique_to_keep : ℤ
  duplicates_found : ℤ

/-- The summary printed by find_and_process_duplicates: total = number of
encodings, unique to keep = that total minus the number of files marked
for removal, duplicates found = the number marked for removal. -/
def summarize (encodings : List (Path × Hash)) (files_to_remove : Finset Path) :
    ResultSummary :=
  { total_images := (encodings.length : ℤ)
    unique_to_keep := (encodings.length : ℤ) - (files_to_remove.card : ℤ)
    duplicates_found := (files_to_remove.card : ℤ) }

/-- The deletion loop (dedup.py lines 127-132): os.remove each path in
files_to_remove; a failure on a missing path is caught and changes
nothing, so the effect on the filesystem is set difference. -/
def deleteFiles (files_to_remove : Finset Path) (fs : Finset Path) : Finset Path :=
  fs \ files_to_remove

/-- The action phase (dedup.py lines 122-137): return early when nothing
is marked for removal; otherwise delete in delete mode and only print in
dry-run mode. Result: the filesystem after the phase. -/
def actionPhase (files_to_remove : Finset Path) (delete_mode : Bool) (fs : Finset Path) :
    Finset Path :=
  if files_to_remove.card = 0 then fs
  else if delete_mode then deleteFiles files_to_remove fs
  else fs

/-- find_and_process_duplicates (dedup.py lines 84-137): the external
grouping output is the pair (dupKeys, dupOf); run the selection phase,
form the summary, run the action phase. -/
def find_and_process_duplicates (dupKeys : List Path) (dupOf : Path → List Path)
    (encodings : List (Path × Hash)) (delete_mode : Bool) (fs : Finset Path) :
    SelState × ResultSummary × Finset Path :=
  let st := selectionPhase dupKeys dupOf
  (st, summarize encodings st.files_to_remove, actionPhase st.files_to_remove delete_mode fs)

/-- Outcome of a whole run of main. -/
inductive RunResult where
  | noImages
  | completed (summary : ResultSummary) (kept_files files_to_remove : Finset Path)

/-- main (dedup.py lines 139-157): scan, exit early with the
"No images found" message when nothing matched, otherwise encode and run
find_and_process_duplicates. Returns the outcome and the filesystem after
the run. -/
def main (walkFiles : List (Path × Path)) (encode : Path → Option Hash)
    (dupKeys : List Path) (dupOf : Path → List Path)
    (delete_mode : Bool) (fs : Finset Path) : RunResult × Finset Path :=
  let image_paths := get_image_files walkFiles
  if image_paths = [] then (RunResult.noImages, fs)
  else
    let encodings := generate_encodings encode image_paths
    let r := find_and_process_duplicates dupKeys dupOf encodings delete_mode fs
    (RunResult.completed r.2.1 r.1.kept_files r.1.files_to_remove, r.2.2)

/-- The duplicate map of the concrete scenario of claim C1:
A maps to [B, C], B maps to [A], C maps to []. -/
def dupOfC1 : Path → List Path := fun p =>
  if p = ['A'] then [['B'], ['C']] else if p = ['B'] then [['A']] else []

/-- A duplicate map where B lists itself and A also lists B:
A maps to [B], B maps to [B]. -/
def dupOfC4 : Path → List Path := fun p =>
  if p = ['A'] then [['B']] else if p = ['B'] then [['B']] else []

/-- A duplicate map with self-listing path A and nothing else:
A maps to [A]. -/
def dupOfW4 : Path → List Path := fun p =>
  if p = ['A'] then [['A']] else []

/-- A duplicate map with the mutually-referencing cluster \x7bB, C\x7d and an
outside path A that lists B: A maps to [B], B maps to [C], C maps to [B]. -/
def dupOfC5 : Path → List Path := fun p =>
  if p = ['A'] then [['B']]
  else if p = ['B'] then [['C']]
  else if p = ['C'] then [['B']] else []

/-- The isolated mutually-referencing cluster \x7bB, C\x7d on its own:
B maps to [C], C maps to [B]. -/
def dupOfW5 : Path → List Path := fun p =>
  if p = ['B'] then [['C']] else if p = ['C'] then [['B']] else []

/-- A duplicate map where only A has duplicates: A maps to [B]. -/
def dupOfW3 : Path → List Path := fun p =>
  if p = ['A'] then [['B']] else []

/-- The empty duplicate map. -/
def dupOfEmpty : Path → List Path := fun _ => []

/-- A duplicate map where A lists B and nothing else is listed. -/
def dupOfW10 : Path → List Path := fun p =>
  if p = ['A'] then [['B']] else []

/-- A hasher that succeeds on the single path a and fails elsewhere. -/
def encodeW : Path → Option Hash := fun p =>
  if p = ['a'] then some ['h'] else none

/-! Helper lemmas about the selection loop. -/

theorem markStep_kept (filename : Path) (s : SelState) (dup : Path) :
    (markStep filename s dup).kept_files = s.kept_files := by
  unfold markStep
  split <;> rfl

theorem markStep_removed_mono (filename : Path) (s : SelState) (dup : Path) :
    s.files_to_remove ⊆ (markStep filename s dup).files_to_remove := by
  unfold markStep
  split
  · exact Finset.subset_insert _ _
  · exact Finset.Subset.refl _

theorem markStep_removed_sub (filename : Path) (s : SelState) (dup p : Path) :
    p ∈ (markStep filename s dup).files_to_remove →
    p ∈ s.files_to_remove ∨ (p = dup ∧ p ≠ filename ∧ p ∉ s.kept_files) := by
  unfold markStep
  split
  · rename_i hcond
    intro h
    rcases Finset.mem_insert.mp h with h1 | h1
    · exact Or.inr ⟨h1, h1 ▸ hcond.1, h1 ▸ hcond.2.2⟩
    · exact Or.inl h1
  · exact Or.inl

theorem markDuplicates_kept (filename : Path) (dups : List Path) (st : SelState) :
    (markDuplicates filename dups st).kept_files = st.kept_files := by
  induction dups generalizing st with
  | nil => rfl
  | cons d ds ih =>
    show (markDuplicates filename ds (markStep filename st d)).kept_files = _
    rw [ih, markStep_kept]

theorem markDuplicates_removed_mono (filename : Path) (dups : List Path) (st : SelState) :
    st.files_to_remove ⊆ (markDuplicates filename dups st).files_to_remove := by
  induction dups generalizing st with
  | nil => exact Finset.Subset.refl _
  | cons d ds ih =>
    exact (markStep_removed_mono filename st d).trans (ih (markStep filename st d))

theorem markDuplicates_removed_sub (filename : Path) (dups : List Path) (st : SelState)
    (p : Path) :
    p ∈ (markDuplicates filename dups st).files_to_remove →
    p ∈ st.files_to_remove ∨ (p ∈ dups ∧ p ≠ filename ∧ p ∉ st.kept_files) := by
  induction dups generalizing st with
  | nil => exact Or.inl
  | cons d ds ih =>
    intro h
    rcases ih (markStep filename st d) h with h1 | h1
    · rcases markStep_removed_sub filename st d p h1 with h2 | h2
      · exact Or.inl h2
      · exact Or.inr ⟨h2.1 ▸ List.mem_cons_self d ds, h2.2.1, h2.2.2⟩
    · rw [markStep_kept] at h1
      rcases markStep_removed_sub filename st d p with _
      rcases h1 with ⟨hds, hpf, hpk⟩
      exact Or.inr ⟨List.mem_cons_of_mem d hds, hpf, hpk⟩

theorem markStep_disjoint (filename : Path) (s : SelState) (dup : Path)
    (h : Disjoint s.kept_files s.files_to_remove) :
    Disjoint (markStep filename s dup).kept_files (markStep filename s dup).files_to_remove := by
  unfold markStep
  split
  · rename_i hcond
    exact Finset.disjoint_insert_right.mpr ⟨hcond.2.2, h⟩
  · exact h

theorem markDuplicates_disjoint (filename : Path) (dups : List Path) (st : SelState)
    (h : Disjoint st.kept_files st.files_to_remove) :
    Disjoint (markDuplicates filename dups st).kept_files
      (markDuplicates filename dups st).files_to_remove := by
  induction dups generalizing st with
  | nil => exact h
  | cons d ds ih =>
    exact ih (markStep filename st d) (markStep_disjoint filename st d h)

theorem processFilename_of_mem (dupOf : Path → List Path) (st : SelState) (a : Path)
    (h : a ∈ st.files_to_remove) : processFilename dupOf st a = st := by
  unfold processFilename
  rw [if_pos h]

theorem processFilename_of_empty (dupOf : Path → List Path) (st : SelState) (a : Path)
    (h : a ∉ st.files_to_remove) (h2 : dupOf a = []) : processFilename dupOf st a = st := by
  unfold processFilename
  rw [if_neg h, if_pos h2]

theorem processFilename_of_keep (dupOf : Path → List Path) (st : SelState) (a : Path)
    (h : a ∉ st.files_to_remove) (h2 : dupOf a ≠ []) :
    processFilename dupOf st a
      = markDuplicates a (dupOf a) { st with kept_files := insert a st.kept_files } := by
  unfold processFilename
  rw [if_neg h, if_neg h2]

theorem processFilename_kept_mono (dupOf : Path → List Path) (st : SelState) (a : Path) :
    st.kept_files ⊆ (processFilename dupOf st a).kept_files := by
  by_cases h1 : a ∈ st.files_to_remove
  · rw [processFilename_of_mem dupOf st a h1]
  · by_cases h2 : dupOf a = []
    · rw [processFilename_of_empty dupOf st a h1 h2]
    · rw [processFilename_of_keep dupOf st a h1 h2, markDuplicates_kept]
      exact Finset.subset_insert _ _

theorem processFilename_removed_mono (dupOf : Path → List Path) (st : SelState) (a : Path) :
    st.files_to_remove ⊆ (processFilename dupOf st a).files_to_remove := by
  by_cases h1 : a ∈ st.files_to_remove
  · rw [processFilename_of_mem dupOf st a h1]
  · by_cases h2 : dupOf a = []
    · rw [processFilename_of_empty dupOf st a h1 h2]
    · rw [processFilename_of_keep dupOf st a h1 h2]
      exact markDuplicates_removed_mono a (dupOf a)
        { st with kept_files := insert a st.kept_files }

theorem processFilename_removed_sub (dupOf : Path → List Path) (st : SelState) (a p : Path) :
    p ∈ (processFilename dupOf st a).files_to_remove →
    p ∈ st.files_to_remove ∨
      (p ≠ a ∧ p ∈ dupOf a ∧ a ∈ (processFilename dupOf st a).kept_files) := by
  by_cases h1 : a ∈ st.files_to_remove
  · rw [processFilename_of_mem dupOf st a h1]
    exact Or.inl
  · by_cases h2 : dupOf a = []
    · rw [processFilename_of_empty dupOf st a h1 h2]
      exact Or.inl
    · rw [processFilename_of_keep dupOf st a h1 h2]
      intro h
      rcases markDuplicates_removed_sub a (dupOf a) _ p h with h3 | h3
      · exact Or.inl h3
      · refine Or.inr ⟨h3.2.1, h3.1, ?_⟩
        rw [markDuplicates_kept]
        exact Finset.mem_insert_self a _

theorem processFilename_disjoint (dupOf : Path → List Path) (st : SelState) (a : Path)
    (h : Disjoint st.kept_files st.files_to_remove) :
    Disjoint (processFilename dupOf st a).kept_files
      (processFilename dupOf st a).files_to_remove := by
  by_cases h1 : a ∈ st.files_to_remove
  · rw [processFilename_of_mem dupOf st a h1]
    exact h
  · by_cases h2 : dupOf a = []
    · rw [processFilename_of_empty dupOf st a h1 h2]
      exact h
    · rw [processFilename_of_keep dupOf st a h1 h2]
      exact markDuplicates_disjoint a (dupOf a) _
        (Finset.disjoint_insert_left.mpr ⟨h1, h⟩)

theorem selectionFold_cons (dupOf : Path → List Path) (st : SelState) (a : Path)
    (keys : List Path) :
    selectionFold dupOf st (a :: keys) = selectionFold dupOf (processFilename dupOf st a) keys :=
  rfl

theorem selectionFold_append (dupOf : Path → List Path) (st : SelState)
    (l1 l2 : List Path) :
    selectionFold dupOf st (l1 ++ l2) = selectionFold dupOf (selectionFold dupOf st l1) l2 := by
  unfold selectionFold
  rw [List.foldl_append]

theorem selectionFold_kept_mono (dupOf : Path → List Path) (keys : List Path) (st : SelState) :
    st.kept_files ⊆ (selectionFold dupOf st keys).kept_files := by
  induction keys generalizing st with
  | nil => exact Finset.Subset.refl _
  | cons a t ih =>
    exact (processFilename_kept_mono dupOf st a).trans (ih (processFilename dupOf st a))

theorem selectionFold_removed_mono (dupOf : Path → List Path) (keys : List Path)
    (st : SelState) :
    st.files_to_remove ⊆ (selectionFold dupOf st keys).files_to_remove := by
  induction keys generalizing st with
  | nil => exact Finset.Subset.refl _
  | cons a t ih =>
    exact (processFilename_removed_mono dupOf st a).trans (ih (processFilename dupOf st a))

theorem selectionFold_disjoint (dupOf : Path → List Path) (keys : List Path) (st : SelState)
    (h : Disjoint st.kept_files st.files_to_remove) :
    Disjoint (selectionFold dupOf st keys).kept_files
      (selectionFold dupOf st keys).files_to_remove := by
  induction keys generalizing st with
  | nil => exact h
  | cons a t ih =>
    exact ih (processFilename dupOf st a) (processFilename_disjoint dupOf st a h)

theorem selectionFold_removed_char (dupOf : Path → List Path) (keys : List Path)
    (st : SelState) (p : Path) :
    p ∈ (selectionFold dupOf st keys).files_to_remove →
    p ∈ st.files_to_remove ∨
      ∃ k, k ∈ keys ∧ k ≠ p ∧ p ∈ dupOf k ∧ k ∈ (selectionFold dupOf st keys).kept_files := by
  induction keys generalizing st with
  | nil => exact Or.inl
  | cons a t ih =>
    intro h
    rcases ih (processFilename dupOf st a) h with h1 | h1
    · rcases processFilename_removed_sub dupOf st a p h1 with h2 | h2
      · exact Or.inl h2
      · refine Or.inr ⟨a, List.mem_cons_self a t, fun he => h2.1 he.symm, h2.2.1, ?_⟩
        exact selectionFold_kept_mono dupOf t (processFilename dupOf st a) h2.2.2
    · rcases h1 with ⟨k, hk, hkp, hdup, hkkept⟩
      exact Or.inr ⟨k, List.mem_cons_of_mem a hk, hkp, hdup, hkkept⟩

theorem initialState_disjoint :
    Disjoint initialState.kept_files initialState.files_to_remove := by
  simp [initialState]

theorem actionPhase_dry (files_to_remove : Finset Path) (fs : Finset Path) :
    actionPhase files_to_remove false fs = fs := by
  unfold actionPhase
  split <;> rfl

theorem dictInsert_fresh (m : List (Path × Hash)) (k : Path) (v : Hash)
    (h : ∀ kv ∈ m, kv.1 ≠ k) : dictInsert m k v = m ++ [(k, v)] := by
  have hfalse : ¬(m.any (fun kv => kv.1 == k) = true) := by
    rw [List.any_eq_true]
    rintro ⟨kv, hm, he⟩
    exact h kv hm (beq_iff_eq.mp he)
  unfold dictInsert
  rw [if_neg hfalse]

theorem generate_encodings_aux (encode : Path → Option Hash) (image_paths : List Path)
    (acc : List (Path × Hash)) :
    image_paths.Nodup → (∀ p ∈ image_paths, ∀ kv ∈ acc, kv.1 ≠ p) →
    (image_paths.foldl (fun encodings img_path =>
        match encode img_path with
        | some hash_str => dictInsert encodings img_path hash_str
        | none => encodings) acc).map Prod.fst
      = acc.map Prod.fst ++ image_paths.filter (fun p => (encode p).isSome) := by
  induction image_paths generalizing acc with
  | nil =>
    intro _ _
    simp
  | cons a t ih =>
    intro hnd hfresh
    rw [List.foldl_cons]
    cases ha : encode a with
    | none =>
      dsimp only
      have hfilter : (a :: t).filter (fun p => (encode p).isSome)
          = t.filter (fun p => (encode p).isSome) := by
        simp [List.filter_cons, ha]
      rw [hfilter]
      exact ih acc (List.Nodup.of_cons hnd)
        (fun p hp kv hkv => hfresh p (List.mem_cons_of_mem a hp) kv hkv)
    | some v =>
      dsimp only
      have hins : dictInsert acc a v = acc ++ [(a, v)] :=
        dictInsert_fresh acc a v (fun kv hkv => hfresh a (List.mem_cons_self a t) kv hkv)
      rw [hins]
      have hanotint : a ∉ t := (List.nodup_cons.mp hnd).1
      have hfresh2 : ∀ p ∈ t, ∀ kv ∈ acc ++ [(a, v)], kv.1 ≠ p := by
        intro p hp kv hkv
        rcases List.mem_append.mp hkv with hkv1 | hkv1
        · exact hfresh p (List.mem_cons_of_mem a hp) kv hkv1
        · rw [List.mem_singleton.mp hkv1]
          intro he
          have he2 : a = p := he
          apply hanotint
          rw [he2]
          exact hp
      rw [ih (acc ++ [(a, v)]) (List.Nodup.of_cons hnd) hfresh2]
      have hfilter : (a :: t).filter (fun p => (encode p).isSome)
          = a :: t.filter (fun p => (encode p).isSome) := by
        simp [List.filter_cons, ha]
      rw [hfilter]
      simp

/-! Theorems for the claims. -/

/-- Claim C1, counterexample: in the concrete scenario with duplicate map
A maps to [B, C], B maps to [A], C maps to [], the selection phase does
NOT produce kept = \x7bA, C\x7d and removed = \x7bB\x7d: processing A also marks C
(which A lists) for removal. -/
theorem C1_counterexample :
    ¬ ((selectionPhase [['A'], ['B'], ['C']] dupOfC1).kept_files = {['A'], ['C']} ∧
       (selectionPhase [['A'], ['B'], ['C']] dupOfC1).files_to_remove = {['B']}) := by
  decide

/-- Claim C1, amended: in that scenario the selection phase produces
kept = \x7bA\x7d and removed = \x7bB, C\x7d, because C is listed in A's duplicate
list and is therefore claimed by A before its own (empty) list is
reached. -/
theorem C1_amended_scenario :
    (selectionPhase [['A'], ['B'], ['C']] dupOfC1).kept_files = {['A']} ∧
    (selectionPhase [['A'], ['B'], ['C']] dupOfC1).files_to_remove = {['B'], ['C']} := by
  decide

/-- Claim C2: the reported unique-kept count plus the reported duplicate
count equals the reported total encoded count, for every run of
find_and_process_duplicates. -/
theorem C2_count_identity (dupKeys : List Path) (dupOf : Path → List Path)
    (encodings : List (Path × Hash)) (delete_mode : Bool) (fs : Finset Path) :
    ((find_and_process_duplicates dupKeys dupOf encodings delete_mode fs).2.1).unique_to_keep
      + ((find_and_process_duplicates dupKeys dupOf encodings
          delete_mode fs).2.1).duplicates_found
      = ((find_and_process_duplicates dupKeys dupOf encodings
          delete_mode fs).2.1).total_images := by
  simp only [find_and_process_duplicates, summarize]
  ring

/-- Claim C3: at every point of the selection loop (after any initial
segment of the sorted key list) the kept set and the removed set are
disjoint, and a path kept at some point is not in the removed set at the
end of the loop. -/
theorem C3_kept_removed_disjoint (dupOf : Path → List Path) (dupKeys pre suf : List Path)
    (h : sorted_filenames dupKeys = pre ++ suf) :
    Disjoint (selectionFold dupOf initialState pre).kept_files
      (selectionFold dupOf initialState pre).files_to_remove ∧
    ∀ p ∈ (selectionFold dupOf initialState pre).kept_files,
      p ∉ (selectionPhase dupKeys dupOf).files_to_remove := by
  constructor
  · exact selectionFold_disjoint dupOf pre initialState initialState_disjoint
  · intro p hp
    have hfin : selectionPhase dupKeys dupOf
        = selectionFold dupOf (selectionFold dupOf initialState pre) suf := by
      unfold selectionPhase
      rw [h, selectionFold_append]
    have hpk : p ∈ (selectionPhase dupKeys dupOf).kept_files := by
      rw [hfin]
      exact selectionFold_kept_mono dupOf suf _ hp
    have hdisj := selectionFold_disjoint dupOf (sorted_filenames dupKeys)
      initialState initialState_disjoint
    exact Finset.disjoint_left.mp hdisj hpk

/-- Witness for C3: with duplicate map A maps to [B] over keys [A, B],
A is kept after the first step and is not removed at the end. -/
theorem C3_kept_removed_disjoint_witness :
    ['A'] ∉ (selectionPhase [['A'], ['B']] dupOfW3).files_to_remove :=
  (C3_kept_removed_disjoint dupOfW3 [['A'], ['B']] [['A']] [['B']] (by decide)).2
    ['A'] (by decide)

/-- Claim C4, counterexample: B's duplicate list contains B itself, yet B
is removed, because the earlier key A also lists B; the self-duplicate
guard only protects B while B's own list is processed. -/
theorem C4_counterexample :
    ['B'] ∈ dupOfC4 ['B'] ∧
    ['B'] ∈ (selectionPhase [['A'], ['B']] dupOfC4).files_to_remove := by
  decide

/-- Claim C4, amended: if the duplicate list of p contains p itself and p
occurs in no other path's duplicate list, then p is not in the removed
set produced by the selection phase. -/
theorem C4_self_guard_isolated (dupKeys : List Path) (dupOf : Path → List Path) (p : Path)
    (_hself : p ∈ dupOf p) (hothers : ∀ q, q ≠ p → p ∉ dupOf q) :
    p ∉ (selectionPhase dupKeys dupOf).files_to_remove := by
  intro h
  rcases selectionFold_removed_char dupOf (sorted_filenames dupKeys) initialState p h with
    h1 | ⟨k, _, hkp, hdup, _⟩
  · exact absurd h1 (Finset.not_mem_empty p)
  · exact (hothers k hkp) hdup

/-- Witness for the amended C4: A lists only itself and nothing else
lists A, so A is not removed. -/
theorem C4_self_guard_isolated_witness :
    ['A'] ∉ (selectionPhase [['A']] dupOfW4).files_to_remove :=
  C4_self_guard_isolated [['A']] dupOfW4 ['A'] (by decide)
    (by
      intro q hq
      simp [dupOfW4, hq])

/-- Claim C5, counterexample: B and C mutually reference each other and B
sorts lowest in the cluster, yet B is removed: the outside key A sorts
before B and lists B as a duplicate. -/
theorem C5_counterexample :
    (['C'] ∈ dupOfC5 ['B'] ∧ ['B'] ∈ dupOfC5 ['C']) ∧ ['B'] < ['C'] ∧
    ['B'] ∈ (selectionPhase [['A'], ['B'], ['C']] dupOfC5).files_to_remove := by
  decide

/-- Claim C5, amended: for a mutually-referencing cluster S with at least
two members whose lowest-sorting member m is listed in no duplicate list
outside S, m ends up kept and never removed. -/
theorem C5_lowest_kept_isolated_cluster (dupKeys : List Path) (dupOf : Path → List Path)
    (S : Finset Path) (m : Path)
    (hnodup : dupKeys.Nodup) (hmS : m ∈ S) (hmkeys : m ∈ dupKeys)
    (hmin : ∀ q ∈ S, m ≤ q) (htwo : ∃ q ∈ S, q ≠ m)
    (hmut : ∀ p ∈ S, ∀ q ∈ S, p ≠ q → q ∈ dupOf p)
    (hiso : ∀ q, q ∉ S → m ∉ dupOf q) :
    m ∈ (selectionPhase dupKeys dupOf).kept_files ∧
      m ∉ (selectionPhase dupKeys dupOf).files_to_remove := by
  have hLs : (sorted_filenames dupKeys).Sorted (· ≤ ·) :=
    List.sorted_insertionSort _ dupKeys
  have hLp : (sorted_filenames dupKeys).Perm dupKeys :=
    List.perm_insertionSort _ dupKeys
  have hLn : (sorted_filenames dupKeys).Nodup := hLp.nodup_iff.mpr hnodup
  have hmL : m ∈ sorted_filenames dupKeys := hLp.mem_iff.mpr hmkeys
  obtain ⟨pre, suf, hsplit⟩ := List.append_of_mem hmL
  have hpre_lt : ∀ k ∈ pre, k < m := by
    intro k hk
    have hs2 : List.Pairwise (· ≤ ·) (pre ++ m :: suf) := by
      rw [← hsplit]
      exact hLs
    have hle : k ≤ m :=
      (List.pairwise_append.mp hs2).2.2 k hk m (List.mem_cons_self m suf)
    have hn2 : (pre ++ m :: suf).Nodup := by
      rw [← hsplit]
      exact hLn
    have hne : k ≠ m := by
      intro he
      exact (List.disjoint_of_nodup_append hn2) hk (by rw [he]; exact List.mem_cons_self m suf)
    exact lt_of_le_of_ne hle hne
  have hm0 : m ∉ (selectionFold dupOf initialState pre).files_to_remove := by
    intro h
    rcases selectionFold_removed_char dupOf pre initialState m h with
      h1 | ⟨k, hk, _, hdup, _⟩
    · exact absurd h1 (Finset.not_mem_empty m)
    · by_cases hkS : k ∈ S
      · exact absurd (hmin k hkS) (not_le_of_lt (hpre_lt k hk))
      · exact (hiso k hkS) hdup
  have hne_nil : dupOf m ≠ [] := by
    obtain ⟨q, hqS, hqm⟩ := htwo
    have hq : q ∈ dupOf m := hmut m hmS q hqS (Ne.symm hqm)
    intro he
    rw [he] at hq
    exact (List.not_mem_nil q) hq
  have hkeep :
      m ∈ (processFilename dupOf (selectionFold dupOf initialState pre) m).kept_files := by
    rw [processFilename_of_keep dupOf _ m hm0 hne_nil, markDuplicates_kept]
    exact Finset.mem_insert_self m _
  have hfinal : selectionPhase dupKeys dupOf
      = selectionFold dupOf
          (processFilename dupOf (selectionFold dupOf initialState pre) m) suf := by
    unfold selectionPhase
    rw [hsplit, selectionFold_append, selectionFold_cons]
  have hkF : m ∈ (selectionPhase dupKeys dupOf).kept_files := by
    rw [hfinal]
    exact selectionFold_kept_mono dupOf suf _ hkeep
  have hdisj : Disjoint (selectionPhase dupKeys dupOf).kept_files
      (selectionPhase dupKeys dupOf).files_to_remove :=
    selectionFold_disjoint dupOf (sorted_filenames dupKeys) initialState initialState_disjoint
  exact ⟨hkF, Finset.disjoint_left.mp hdisj hkF⟩

/-- Witness for the amended C5: the isolated cluster \x7bB, C\x7d with lowest
member B: B is kept and not removed. -/
theorem C5_lowest_kept_isolated_cluster_witness :
    ['B'] ∈ (selectionPhase [['B'], ['C']] dupOfW5).kept_files ∧
      ['B'] ∉ (selectionPhase [['B'], ['C']] dupOfW5).files_to_remove :=
  C5_lowest_kept_isolated_cluster [['B'], ['C']] dupOfW5 {['B'], ['C']} ['B']
    (by decide) (by decide) (by decide) (by decide)
    ⟨['C'], by decide, by decide⟩
    (by decide)
    (by
      intro q hq
      simp only [Finset.mem_insert, Finset.mem_singleton, not_or] at hq
      simp [dupOfW5, hq.1, hq.2])

/-- Claim C6: the selection phase is deterministic: any two enumeration
orders of the same duplicate-map keys give identical kept and removed
sets, because the keys are sorted before processing. -/
theorem C6_deterministic (dupOf : Path → List Path) (keys1 keys2 : List Path)
    (h : keys1.Perm keys2) :
    selectionPhase keys1 dupOf = selectionPhase keys2 dupOf := by
  have hs : sorted_filenames keys1 = sorted_filenames keys2 :=
    List.eq_of_perm_of_sorted
      (((List.perm_insertionSort _ keys1).trans h).trans
        (List.perm_insertionSort _ keys2).symm)
      (List.sorted_insertionSort _ keys1)
      (List.sorted_insertionSort _ keys2)
  unfold selectionPhase
  rw [hs]

/-- Witness for C6 at a concrete pair of key orders. -/
theorem C6_deterministic_witness :
    selectionPhase [['B'], ['A']] dupOfEmpty = selectionPhase [['A'], ['B']] dupOfEmpty :=
  C6_deterministic dupOfEmpty [['B'], ['A']] [['A'], ['B']] (by decide)

/-- Claim C7: with the delete flag absent (dry run) the whole run leaves
the filesystem unchanged. -/
theorem C7_dry_run_no_mutation (walkFiles : List (Path × Path)) (encode : Path → Option Hash)
    (dupKeys : List Path) (dupOf : Path → List Path) (fs : Finset Path) :
    (main walkFiles encode dupKeys dupOf false fs).2 = fs := by
  by_cases h : get_image_files walkFiles = []
  · simp [main, h]
  · simp [main, h, find_and_process_duplicates, actionPhase_dry]

/-- Claim C8: when the scanner finds no image files, main exits early
with the no-images outcome and the filesystem untouched, and no later
phase contributes to the result. -/
theorem C8_no_images_early_exit (walkFiles : List (Path × Path)) (encode : Path → Option Hash)
    (dupKeys : List Path) (dupOf : Path → List Path) (delete_mode : Bool) (fs : Finset Path)
    (h : get_image_files walkFiles = []) :
    main walkFiles encode dupKeys dupOf delete_mode fs = (RunResult.noImages, fs) := by
  simp [main, h]

/-- Witness for C8: a directory holding only a non-image file. -/
theorem C8_no_images_early_exit_witness :
    main [(['d'], ['a', '.', 't', 'x', 't'])] (fun _ => none) [] (fun _ => []) false ∅
      = (RunResult.noImages, ∅) :=
  C8_no_images_early_exit [(['d'], ['a', '.', 't', 'x', 't'])] (fun _ => none) []
    (fun _ => []) false ∅ (by decide)

/-- Claim C9: a per-file encoding failure is skipped and the keys of the
encoding map, in scan order, are exactly the scanned paths on which the
hasher succeeded. -/
theorem C9_encode_failure_skips (encode : Path → Option Hash) (image_paths : List Path)
    (h : image_paths.Nodup) :
    (generate_encodings encode image_paths).map Prod.fst
      = image_paths.filter (fun p => (encode p).isSome) := by
  have haux := generate_encodings_aux encode image_paths [] h
    (fun p _ kv hkv => absurd hkv (List.not_mem_nil kv))
  simpa [generate_encodings] using haux

/-- Witness for C9: the hasher succeeds on a and fails on b; the encoding
map has exactly the key a. -/
theorem C9_encode_failure_skips_witness :
    (generate_encodings encodeW [['a'], ['b']]).map Prod.fst
      = [['a'], ['b']].filter (fun p => (encodeW p).isSome) :=
  C9_encode_failure_skips encodeW [['a'], ['b']] (by decide)

/-- Claim C10: every removed path occurs in the duplicate list of some
kept path; hence a path occurring in no duplicate list is never
removed. -/
theorem C10_removed_are_listed (dupKeys : List Path) (dupOf : Path → List Path) :
    (∀ p ∈ (selectionPhase dupKeys dupOf).files_to_remove,
      ∃ k ∈ (selectionPhase dupKeys dupOf).kept_files, p ∈ dupOf k) ∧
    ∀ p, (∀ k, p ∉ dupOf k) → p ∉ (selectionPhase dupKeys dupOf).files_to_remove := by
  constructor
  · intro p hp
    rcases selectionFold_removed_char dupOf (sorted_filenames dupKeys) initialState p hp with
      h1 | ⟨k, _, _, hdup, hkkept⟩
    · exact absurd h1 (Finset.not_mem_empty p)
    · exact ⟨k, hkkept, hdup⟩
  · intro p hnone hp
    rcases selectionFold_removed_char dupOf (sorted_filenames dupKeys) initialState p hp with
      h1 | ⟨k, _, _, hdup, _⟩
    · exact absurd h1 (Finset.not_mem_empty p)
    · exact (hnone k) hdup

/-- Witness for C10: with A listing B, the removed path B is listed under
the kept path A. -/
theorem C10_removed_are_listed_witness :
    ∃ k ∈ (selectionPhase [['A'], ['B']] dupOfW10).kept_files, ['B'] ∈ dupOfW10 k :=
  (C10_removed_are_listed [['A'], ['B']] dupOfW10).1 ['B'] (by decide)

end Dedup
